import Mathlib

/-!
Verification of the TibSentenceGathering repository.

Strings of the Python source are modelled as `List Char` internally (a Python
`str` is a sequence of Unicode code points); the public entry points take Lean
`String`s and convert via `String.toList`.

The third-party `datasketch` MinHash/LSH index is external to the repository;
per the design the index answers "is some previously inserted fingerprint
similar enough to this one" where a fingerprint is the set of newline-delimited
paragraphs of a record's source text.  The similarity oracle is therefore a
parameter `sim` of the deduplication model, and the index state is the list of
`(id, fingerprint)` pairs inserted so far.
-/

namespace TibSentenceGathering

/-! ## Definitions: sentence_validation.py -/

/-- The reserved sentence-break marker `"<sent_br>"` as a character list. -/
def token : List Char := ['<', 's', 'e', 'n', 't', '_', 'b', 'r', '>']

/-- `s.replace(" ", "")`: remove every space character. -/
def stripSpaces (l : List Char) : List Char := l.filter (fun c => c != ' ')

/-- `target_no_spaces.startswith("<sent_br>", tgt_idx)`: the next nine
characters are exactly the token. -/
def startsWithToken : List Char → Bool
  | '<' :: 's' :: 'e' :: 'n' :: 't' :: '_' :: 'b' :: 'r' :: '>' :: _ => true
  | _ => false

/-- `"<sent_br>" in l`: some suffix of `l` starts with the token. -/
def hasTok : List Char → Bool
  | [] => false
  | c :: rest => startsWithToken (c :: rest) || hasTok rest

/-- `manhattan_distance` (sentence_validation.py, lines 8-16): `-1` on unequal
lengths, otherwise the number of positions where the strings differ. -/
def manhattan_distance (s t : List Char) : Int :=
  if s.length ≠ t.length then -1
  else ((s.zip t).countP (fun p => p.1 != p.2) : Nat)

/-- The main `while tgt_idx < len(target_no_spaces)` loop of
`replace_sentence_breaks_and_validate` (sentence_validation.py, lines 50-71).
The state is the remaining source suffix (`src`, cursor `src_idx`), the
remaining target suffix (`tgt`, cursor `tgt_idx`), and the reconstruction
buffer built so far (`acc`).  `none` models `return False` from inside the
loop; `some (rem, acc)` is the state when the loop exits with `rem` the
unconsumed source suffix.  The second pattern is
`target_no_spaces.startswith("<sent_br>", tgt_idx)`. -/
def validLoop : List Char → List Char → List Char → Option (List Char × List Char)
  | src, [], acc => some (src, acc)
  | src, '<' :: 's' :: 'e' :: 'n' :: 't' :: '_' :: 'b' :: 'r' :: '>' :: trest, acc =>
    match src with
    | '\n' :: src2 => validLoop src2 trest (acc ++ ['\n'])
    | _ => validLoop src trest acc
  | src, c :: trest, acc =>
    match src with
    | [] => none
    | s :: src2 => if c = s then validLoop src2 trest (acc ++ [c]) else none

/-- `replace_sentence_breaks_and_validate` on character lists: strip spaces
from both strings, run the reconciliation loop, require every leftover source
character to be a newline (sentence_validation.py, lines 74-78), then require
Manhattan distance zero between the stripped source and the reconstruction
buffer (lines 80-90). -/
def validateChars (source target : List Char) : Bool :=
  match validLoop (stripSpaces source) (stripSpaces target) [] with
  | none => false
  | some (rem, reconstructed) =>
    rem.all (fun c => c == '\n') &&
      decide (manhattan_distance (stripSpaces source) reconstructed = 0)

/-- `replace_sentence_breaks_and_validate` (sentence_validation.py, lines
19-90). -/
def replace_sentence_breaks_and_validate (source target : String) : Bool :=
  validateChars source.toList target.toList

/-- The target construction of spec section 8 / claim C6: starting from the
space-stripped source, replace every newline character with the token
`"<sent_br>"`. -/
def mkTarget : List Char → List Char
  | [] => []
  | '\n' :: rest => token ++ mkTarget rest
  | c :: rest => c :: mkTarget rest

/-- String-level wrapper for `mkTarget`: the target that claim C6 constructs
from a source string. -/
def buildTarget (S : String) : String := String.mk (mkTarget (stripSpaces S.toList))

/-! ## Definitions: deduplication.py -/

/-- An input record of the deduplication pipeline: a JSON object with `source`
and `target` keys and an optional `filename` key. -/
structure Record where
  source : String
  target : String
  filename : Option String
deriving DecidableEq

/-- An entry emitted to the unique-output or duplicate-output file:
`source` and `target` always present, `filename` present or absent
(`none` models the key being absent from the emitted dict). -/
structure Entry where
  source : String
  target : String
  filename : Option String
deriving DecidableEq

/-- The paragraph-set fingerprint of a source text: `set(source_text.split("\n"))`
(deduplication.py, line 35).  The MinHash sketch built from this set is the
LSH index key; its similarity behaviour is abstracted by the `Sim` oracle. -/
def fingerprint (text : String) : Finset String := (text.splitOn "\n").toFinset

/-- The similarity oracle abstracting the MinHash/LSH estimated-Jaccard
comparison against the 0.9 threshold. -/
abbrev Sim := Finset String → Finset String → Bool

/-- The LSH index state: the `(id, fingerprint)` pairs inserted so far, in
insertion order.  (The code's `minhashes` dict mirrors these insertions and is
never consulted for classification.) -/
abbrev LshState := List (Nat × Finset String)

/-- `lsh.query(minhash)` is nonempty iff some previously inserted fingerprint
is similar to the queried one. -/
def lshQuery (sim : Sim) (lsh : LshState) (fp : Finset String) : Bool :=
  lsh.any (fun p => sim p.2 fp)

/-- Building the emitted entry (deduplication.py, lines 29-31 and 43-53):
`file_name = entry.get("filename", None)`, and the `filename` key is added to
the emitted dict only under `if file_name:` — Python truthiness, so `None` and
the empty string both leave the key absent. -/
def mkEntry (r : Record) : Entry :=
  { source := r.source
    target := r.target
    filename :=
      match r.filename with
      | some f => if f = "" then none else some f
      | none => none }

/-- `create_deduplicated_chunk` (deduplication.py, lines 8-55).  `idx` is the
global id `start_idx + intra_batch_offset` of the head record.  Returns
`(unique_entries, duplicated_entries, final index state)`; the index is
threaded in input order, and a record is inserted (with its global id) exactly
when the query finds nothing similar. -/
def create_deduplicated_chunk (sim : Sim) :
    List Record → Nat → LshState → List Entry × List Entry × LshState
  | [], _, lsh => ([], [], lsh)
  | r :: rest, idx, lsh =>
    let fp := fingerprint r.source
    if lshQuery sim lsh fp then
      let res := create_deduplicated_chunk sim rest (idx + 1) lsh
      (res.1, mkEntry r :: res.2.1, res.2.2)
    else
      let res := create_deduplicated_chunk sim rest (idx + 1) (lsh ++ [(idx, fp)])
      (mkEntry r :: res.1, res.2.1, res.2.2)

/-- Sequencing of two processing stages: unique and duplicate outputs are
concatenated in order, the index state of the second stage is final. -/
def combine (x y : List Entry × List Entry × LshState) : List Entry × List Entry × LshState :=
  (x.1 ++ y.1, x.2.1 ++ y.2.1, y.2.2)

/-- The slice `json_data[batch_num*chunk_size : min(batch_num*chunk_size +
chunk_size, total_rows)]` taken by batch number `b` (deduplication.py, lines
143-145). -/
def chunkAt (input : List Record) (cs b : Nat) : List Record :=
  (input.drop (b * cs)).take (min (b * cs + cs) input.length - b * cs)

/-- The batch loop `for batch_num in range(processed_batches, total_batches)`
of `process_in_batches` (deduplication.py, lines 142-152): `n` counts the
remaining iterations (`total_batches - batch_num`), `b` is the current
`batch_num`.  Each iteration feeds the batch's slice to
`create_deduplicated_chunk` with `start_idx = batch_num * chunk_size`.
Returns the concatenated unique entries, duplicate entries and the final
index state — which is what the persisted files accumulate, since every
batch's results are appended by a checkpoint no later than the final batch. -/
def runBatches (sim : Sim) (input : List Record) (cs : Nat) :
    Nat → Nat → LshState → List Entry × List Entry × LshState
  | 0, _, lsh => ([], [], lsh)
  | n + 1, b, lsh =>
    let res := create_deduplicated_chunk sim (chunkAt input cs b) (b * cs) lsh
    combine res (runBatches sim input cs n (b + 1) res.2.2)

/-- `total_batches` (deduplication.py, lines 104-106). -/
def totalBatches (total_rows cs : Nat) : Nat :=
  total_rows / cs + (if total_rows % cs > 0 then 1 else 0)

/-- `process_in_batches` (deduplication.py, lines 78-177) for a completed run,
returning the final contents of the unique-output and duplicate-output files.
`existing = some (u0, d0)` models both output files existing at startup with
those parsed contents; `none` models at least one of them missing, in which
case both are initialised empty.  On resume, `processed_batches` is the
integer quotient of the combined persisted length by `chunk_size`, and the
index is rebuilt by inserting the fingerprint of each persisted unique entry
under ids `0..N-1` in file order (lines 108-130).  Every batch result is
appended to the persisted files by a checkpoint (the final batch always
checkpoints), so the completed run's files hold the initial contents followed
by all batch results in order. -/
def process_in_batches (sim : Sim) (input : List Record) (chunk_size : Nat)
    (existing : Option (List Entry × List Entry)) : List Entry × List Entry :=
  let total_rows := input.length
  let total_batches := totalBatches total_rows chunk_size
  match existing with
  | some ud =>
    let processed_batches := (ud.1.length + ud.2.length) / chunk_size
    let lsh0 : LshState := ud.1.enum.map (fun q => (q.1, fingerprint q.2.source))
    let res := runBatches sim input chunk_size (total_batches - processed_batches)
      processed_batches lsh0
    (ud.1 ++ res.1, ud.2 ++ res.2.1)
  | none =>
    let res := runBatches sim input chunk_size total_batches 0 []
    (res.1, res.2.1)

/-- Processing a list of consecutive batches (claim C5's split processing):
each batch is handed to `create_deduplicated_chunk` with `start_id` equal to
the corpus offset of its first record, threading the index state in order. -/
def processSplit (sim : Sim) :
    List (List Record) → Nat → LshState → List Entry × List Entry × LshState
  | [], _, lsh => ([], [], lsh)
  | chunk :: rest, start, lsh =>
    let res := create_deduplicated_chunk sim chunk start lsh
    combine res (processSplit sim rest (start + chunk.length) res.2.2)

/-- A trivially-true similarity oracle, used to instantiate theorems at
concrete inputs (it makes every pair of fingerprints "similar above the
threshold"). -/
def simAll : Sim := fun _ _ => true

/-- A concrete record used to instantiate theorems. -/
def recA : Record := ⟨"a", "t", none⟩

/-- A concrete record with an empty-string filename, used to instantiate
theorems. -/
def recB : Record := ⟨"b", "u", some ""⟩

/-! ## Definitions: the validation path `process_tibetan_sentences` -/

/-- `line.strip()`: drop leading and trailing whitespace characters. -/
def pyStrip (s : String) : String :=
  String.mk (((s.toList.dropWhile Char.isWhitespace).reverse.dropWhile
    Char.isWhitespace).reverse)

/-- The projection of a parsed JSON object to the keys the validation path
reads: `source` and `target`, each absent or a string. -/
structure PyRec where
  source : Option String
  target : Option String
deriving DecidableEq

/-- The result of `json.loads` on a line, as far as the validation path can
tell: `obj r` is a JSON object whose `source`/`target` keys (when present) are
strings; `bad` is any other parsed value — a non-object, or an object whose
`source`/`target` value is not a string — on which the key test
`"source" not in data_point`, the augmentation
`data_point["line_number"] = line_number`, or the validator's field access
raises an uncaught `TypeError`/`AttributeError`. -/
inductive PyVal where
  | obj (rec : PyRec)
  | bad
deriving DecidableEq

/-- An element of the invalid-output list of `process_tibetan_sentences`:
either the synthetic record `{"line_number": …, "error": …, "line": …}` built
on a JSON parse failure (lines 118-123), a parsed record that lacks `source`
or `target`, augmented with its line number (lines 126-132), or a record that
failed alignment validation (lines 135-139). -/
inductive InvalidRecord where
  | parseFailure (line_number : Nat) (error : String) (line : String)
  | missingKeys (rec : PyRec) (line_number : Nat)
  | invalidAlignment (rec : PyRec)
deriving DecidableEq

/-- Handling of one input line (sentence_validation.py, lines 113-139),
parametrised by the external `json.loads` (`parse`, whose `Except.error`
carries `str(e)`).  `Except.error ()` models an exception escaping the
per-line handling (only `json.JSONDecodeError` is caught); `Except.ok none`
is a line that is empty after `strip()`; otherwise the line yields one valid
record (`Sum.inl`) or one invalid record (`Sum.inr`). -/
def processLine (parse : String → Except String PyVal) (ln : Nat) (raw : String) :
    Except Unit (Option (PyRec ⊕ InvalidRecord)) :=
  if pyStrip raw = "" then Except.ok none
  else
    match parse (pyStrip raw) with
    | Except.error e =>
      Except.ok (some (Sum.inr (InvalidRecord.parseFailure ln e (pyStrip raw))))
    | Except.ok PyVal.bad => Except.error ()
    | Except.ok (PyVal.obj rec) =>
      match rec.source, rec.target with
      | some s, some t =>
        if replace_sentence_breaks_and_validate s t then Except.ok (some (Sum.inl rec))
        else Except.ok (some (Sum.inr (InvalidRecord.invalidAlignment rec)))
      | _, _ => Except.ok (some (Sum.inr (InvalidRecord.missingKeys rec ln)))

/-- The `for line_number, line in enumerate(infile, start=1)` loop
(sentence_validation.py, lines 113-139), accumulating the valid and invalid
lists in input order; an uncaught per-line exception propagates out of the
loop. -/
def processLinesFrom (parse : String → Except String PyVal) :
    Nat → List String → Except Unit (List PyRec × List InvalidRecord)
  | _, [] => Except.ok ([], [])
  | n, raw :: rest =>
    match processLine parse n raw with
    | Except.error e => Except.error e
    | Except.ok none => processLinesFrom parse (n + 1) rest
    | Except.ok (some (Sum.inl r)) =>
      match processLinesFrom parse (n + 1) rest with
      | Except.error e => Except.error e
      | Except.ok res => Except.ok (r :: res.1, res.2)
    | Except.ok (some (Sum.inr e)) =>
      match processLinesFrom parse (n + 1) rest with
      | Except.error err => Except.error err
      | Except.ok res => Except.ok (res.1, e :: res.2)

/-- `process_tibetan_sentences` (sentence_validation.py, lines 93-145) on the
(non-I/O) record level: the whole line loop runs inside one `try` whose
`except Exception` handler returns `([], [])`, discarding all accumulated
results (lines 111 and 140-142). -/
def process_tibetan_sentences (parse : String → Except String PyVal)
    (lines : List String) : List PyRec × List InvalidRecord :=
  match processLinesFrom parse 1 lines with
  | Except.ok res => res
  | Except.error _ => ([], [])

/-- Classification of one line in a run with no uncaught exception: the
valid-or-invalid record the line contributes, if any. -/
def lineClass (parse : String → Except String PyVal) (p : Nat × String) :
    Option (PyRec ⊕ InvalidRecord) :=
  match processLine parse p.1 p.2 with
  | Except.ok o => o
  | Except.error _ => none

/-- Discriminator for the one parse outcome that escapes the per-line
recovery: a successfully parsed value on which key access raises. -/
def isBadResult : Except String PyVal → Bool
  | Except.ok PyVal.bad => true
  | _ => false

/-- A concrete parse function used to instantiate theorems: `"ok"` parses to a
well-formed object whose source and target agree, everything else parses
successfully to a non-object value. -/
def parseBad1 : String → Except String PyVal :=
  fun s => if s = "ok" then Except.ok (PyVal.obj ⟨some "a", some "a"⟩) else Except.ok PyVal.bad

/-- Left projection of a classified line. -/
def sumValid : PyRec ⊕ InvalidRecord → Option PyRec
  | Sum.inl r => some r
  | Sum.inr _ => none

/-- Right projection of a classified line. -/
def sumInvalid : PyRec ⊕ InvalidRecord → Option InvalidRecord
  | Sum.inl _ => none
  | Sum.inr e => some e

/-! ## Lemmas: equations of the reconciliation loop -/

set_option maxHeartbeats 2000000 in
theorem validLoop_unfold (src tgt acc : List Char) :
    validLoop src tgt acc =
    match src, tgt, acc with
    | src, [], acc => some (src, acc)
    | src, '<' :: 's' :: 'e' :: 'n' :: 't' :: '_' :: 'b' :: 'r' :: '>' :: trest, acc =>
      match src with
      | '\n' :: src2 => validLoop src2 trest (acc ++ ['\n'])
      | _ => validLoop src trest acc
    | src, c :: trest, acc =>
      match src with
      | [] => none
      | s :: src2 => if c = s then validLoop src2 trest (acc ++ [c]) else none :=
  validLoop.eq_def src tgt acc

theorem validLoop_nil (src acc : List Char) : validLoop src [] acc = some (src, acc) := rfl

theorem validLoop_tok_newline (src2 trest acc : List Char) :
    validLoop ('\n' :: src2) (token ++ trest) acc = validLoop src2 trest (acc ++ ['\n']) := rfl

theorem validLoop_tok_nilsrc (trest acc : List Char) :
    validLoop [] (token ++ trest) acc = validLoop [] trest acc := rfl

theorem validLoop_tok_skip (c : Char) (h : c ≠ '\n') (src2 trest acc : List Char) :
    validLoop (c :: src2) (token ++ trest) acc = validLoop (c :: src2) trest acc := by
  show (match (c :: src2 : List Char) with
    | '\n' :: src2 => validLoop src2 trest (acc ++ ['\n'])
    | _ => validLoop (c :: src2) trest acc) = validLoop (c :: src2) trest acc
  split
  · rename_i heq
    injection heq with h1 h2
    exact absurd h1 h
  · rfl

theorem validLoop_char_cons (c : Char) (trest : List Char)
    (hc : startsWithToken (c :: trest) = false) (s : Char) (src2 acc : List Char) :
    validLoop (s :: src2) (c :: trest) acc =
      if c = s then validLoop src2 trest (acc ++ [c]) else none := by
  rw [validLoop_unfold]
  split
  · rename_i heq
    simp at heq
  · rename_i heq
    rw [heq] at hc
    simp [startsWithToken] at hc
  · rename_i heq
    injection heq with h1 h2
    subst h1
    subst h2
    rfl

theorem validLoop_char_nilsrc (c : Char) (trest : List Char)
    (hc : startsWithToken (c :: trest) = false) (acc : List Char) :
    validLoop [] (c :: trest) acc = none := by
  rw [validLoop_unfold]
  split
  · rename_i heq
    simp at heq
  · rename_i heq
    rw [heq] at hc
    simp [startsWithToken] at hc
  · rename_i heq
    injection heq with h1 h2
    subst h1
    subst h2
    rfl

/-- A list starts with the token iff it is the token followed by a rest. -/
theorem startsWithToken_iff (l : List Char) :
    startsWithToken l = true ↔ ∃ r, l = token ++ r := by
  unfold startsWithToken
  split
  · rename_i r
    simp [token]
  · rename_i h
    constructor
    · intro hf
      simp at hf
    · rintro ⟨r, rfl⟩
      exact absurd rfl (h r)

theorem startsWithToken_append (r : List Char) : startsWithToken (token ++ r) = true := rfl

theorem startsWithToken_false_of_hasTok (c : Char) (rest : List Char)
    (h : hasTok (c :: rest) = false) : startsWithToken (c :: rest) = false := by
  unfold hasTok at h
  exact (Bool.or_eq_false_iff.mp h).1

theorem hasTok_tail (c : Char) (rest : List Char)
    (h : hasTok (c :: rest) = false) : hasTok rest = false := by
  unfold hasTok at h
  exact (Bool.or_eq_false_iff.mp h).2

theorem startsWithToken_false_intro (c : Char) (trest : List Char)
    (h : ∀ r : List Char,
      c = '<' → trest = 's' :: 'e' :: 'n' :: 't' :: '_' :: 'b' :: 'r' :: '>' :: r → False) :
    startsWithToken (c :: trest) = false := by
  cases hs : startsWithToken (c :: trest)
  · rfl
  · obtain ⟨r, hr⟩ := (startsWithToken_iff (c :: trest)).mp hs
    simp only [token, List.cons_append, List.nil_append, List.cons.injEq] at hr
    exact absurd trivial (fun _ => h r hr.1 hr.2)

/-- Loop invariant: whenever the reconciliation loop exits normally, the
source consumed so far is exactly what was appended to the reconstruction
buffer: `src = d ++ rem` and the buffer grew by that same `d`. -/
theorem validLoop_spec (src tgt acc : List Char) :
    ∀ rem acc2, validLoop src tgt acc = some (rem, acc2) →
      ∃ d, src = d ++ rem ∧ acc2 = acc ++ d := by
  induction src, tgt, acc using validLoop.induct with
  | case1 src acc =>
    intro rem acc2 h
    rw [validLoop_nil] at h
    simp only [Option.some.injEq, Prod.mk.injEq] at h
    exact ⟨[], by simp [h.1], by simp [h.2]⟩
  | case2 trest acc src2 ih =>
    intro rem acc2 h
    have h2 : validLoop src2 trest (acc ++ ['\n']) = some (rem, acc2) := h
    obtain ⟨d, hd1, hd2⟩ := ih rem acc2 h2
    exact ⟨'\n' :: d, by simp [hd1], by simp [hd2]⟩
  | case3 src trest acc hne ih =>
    intro rem acc2 h
    match src with
    | [] =>
      have h2 : validLoop [] trest acc = some (rem, acc2) := h
      exact ih rem acc2 h2
    | c :: src2 =>
      have hc : c ≠ '\n' := fun he => hne src2 (by rw [he])
      have h2 : validLoop (c :: src2) (token ++ trest) acc = some (rem, acc2) := h
      rw [validLoop_tok_skip c hc] at h2
      exact ih rem acc2 h2
  | case4 c trest acc hne =>
    intro rem acc2 h
    rw [validLoop_char_nilsrc c trest (startsWithToken_false_intro c trest hne)] at h
    exact absurd h (by simp)
  | case5 trest acc s src2 hne ih =>
    intro rem acc2 h
    rw [validLoop_char_cons s trest (startsWithToken_false_intro s trest hne)] at h
    rw [if_pos rfl] at h
    obtain ⟨d, hd1, hd2⟩ := ih rem acc2 h
    exact ⟨s :: d, by simp [hd1], by simp [hd2]⟩
  | case6 c trest acc hne s src2 hcs =>
    intro rem acc2 h
    rw [validLoop_char_cons c trest (startsWithToken_false_intro c trest hne)] at h
    rw [if_neg hcs] at h
    exact absurd h (by simp)

/-! ## Lemmas: Manhattan distance -/

theorem manhattan_self (l : List Char) : manhattan_distance l l = 0 := by
  unfold manhattan_distance
  rw [if_neg (by simp)]
  have h : ∀ m : List Char, (m.zip m).countP (fun p => p.1 != p.2) = 0 := by
    intro m
    induction m with
    | nil => rfl
    | cons x xs ih => simp [List.zip_cons_cons, List.countP_cons, ih]
  rw [h]
  rfl

theorem manhattan_eq_zero_iff (s t : List Char) : manhattan_distance s t = 0 ↔ s = t := by
  constructor
  · intro h
    unfold manhattan_distance at h
    by_cases hlen : s.length = t.length
    · rw [if_neg (by simp [hlen])] at h
      have hcount : (s.zip t).countP (fun p => p.1 != p.2) = 0 := by exact_mod_cast h
      clear h
      rw [List.countP_eq_zero] at hcount
      induction s generalizing t with
      | nil =>
        cases t with
        | nil => rfl
        | cons b t => simp at hlen
      | cons a s ih =>
        cases t with
        | nil => simp at hlen
        | cons b t =>
          have hab : a = b := by
            have := hcount (a, b) (by rw [List.zip_cons_cons]; exact List.mem_cons_self _ _)
            simpa using this
          have hrest : ∀ p ∈ s.zip t, ¬((fun p => p.1 != p.2) p = true) := by
            intro p hp
            exact hcount p (by rw [List.zip_cons_cons]; exact List.mem_cons_of_mem _ hp)
          have hlen2 : s.length = t.length := by simpa using hlen
          rw [hab, ih t hlen2 hrest]
    · rw [if_pos hlen] at h
      exact absurd h (by decide)
  · intro h
    rw [h]
    exact manhattan_self t

/-- Characterisation: the validator succeeds iff the reconciliation loop
consumes the stripped source exactly, reconstructing it in full.  In
particular the trailing-newline scan of lines 74-78 can only contribute to a
`True` outcome when it consumes nothing: any nonzero trailing consumption
leaves the reconstruction buffer strictly shorter than the stripped source,
and the Manhattan-distance test then fails on unequal lengths. -/
theorem validateChars_true_iff (source target : List Char) :
    validateChars source target = true ↔
      validLoop (stripSpaces source) (stripSpaces target) [] =
        some ([], stripSpaces source) := by
  unfold validateChars
  cases hres : validLoop (stripSpaces source) (stripSpaces target) [] with
  | none => simp
  | some p =>
    obtain ⟨rem, a⟩ := p
    obtain ⟨d, hd1, hd2⟩ := validLoop_spec _ _ _ rem a hres
    simp only [List.nil_append] at hd2
    subst hd2
    simp only [Bool.and_eq_true, List.all_eq_true, decide_eq_true_eq,
      Option.some.injEq, Prod.mk.injEq]
    constructor
    · rintro ⟨_, hmd⟩
      have hsa := (manhattan_eq_zero_iff _ _).mp hmd
      have hrem : rem = [] := by
        have hlen := congrArg List.length (hsa.symm.trans hd1)
        simp only [List.length_append] at hlen
        have : rem.length = 0 := by omega
        exact List.length_eq_zero.mp this
      exact ⟨hrem, hsa.symm⟩
    · rintro ⟨hrem, hacc⟩
      subst hrem
      refine ⟨by simp, ?_⟩
      rw [hacc]
      exact manhattan_self _

theorem validate_true_iff (source target : String) :
    replace_sentence_breaks_and_validate source target = true ↔
      validLoop (stripSpaces source.toList) (stripSpaces target.toList) [] =
        some ([], stripSpaces source.toList) := by
  unfold replace_sentence_breaks_and_validate
  exact validateChars_true_iff source.toList target.toList

/-! ## Lemmas: token-free targets (claim C3) -/

/-- On a token-free target equal to the source, the loop copies everything. -/
theorem validLoop_self (t : List Char) (ht : hasTok t = false) :
    ∀ acc, validLoop t t acc = some ([], acc ++ t) := by
  induction t with
  | nil => intro acc; simp [validLoop_nil]
  | cons c rest ih =>
    intro acc
    rw [validLoop_char_cons c rest (startsWithToken_false_of_hasTok c rest ht)]
    rw [if_pos rfl, ih (hasTok_tail c rest ht)]
    simp

/-- On a token-free target, full reconstruction forces source = target. -/
theorem validLoop_inj (t : List Char) (ht : hasTok t = false) :
    ∀ s acc, validLoop s t acc = some ([], acc ++ s) → s = t := by
  induction t with
  | nil =>
    intro s acc h
    rw [validLoop_nil] at h
    simp only [Option.some.injEq, Prod.mk.injEq] at h
    exact h.1
  | cons c rest ih =>
    intro s acc h
    match s with
    | [] =>
      rw [validLoop_char_nilsrc c rest (startsWithToken_false_of_hasTok c rest ht)] at h
      exact absurd h (by simp)
    | a :: s2 =>
      rw [validLoop_char_cons c rest (startsWithToken_false_of_hasTok c rest ht)] at h
      by_cases hca : c = a
      · rw [if_pos hca] at h
        subst hca
        have h2 : validLoop s2 rest (acc ++ [c]) = some ([], (acc ++ [c]) ++ s2) := by
          rw [h]
          simp
        rw [ih (hasTok_tail c rest ht) s2 (acc ++ [c]) h2]
      · rw [if_neg hca] at h
        exact absurd h (by simp)

/-! ## Lemmas: the newline-replacement target construction (claim C6) -/

theorem mkTarget_newline (rest : List Char) :
    mkTarget ('\n' :: rest) = token ++ mkTarget rest := rfl

theorem mkTarget_cons (c : Char) (h : c ≠ '\n') (rest : List Char) :
    mkTarget (c :: rest) = c :: mkTarget rest := by
  conv_lhs => rw [mkTarget.eq_def]
  split
  · rename_i heq
    simp at heq
  · rename_i heq
    injection heq with h1 h2
    exact absurd h1 h
  · rename_i heq
    injection heq with h1 h2
    rw [h1, h2]

/-- If a `<`-free, newline-free list is a prefix of `mkTarget v`, it is a
prefix of `v` itself (the inserted token blocks all start with `<`). -/
theorem mkTarget_pref (w : List Char) :
    ('<' : Char) ∉ w → ('\n' : Char) ∉ w →
      ∀ v r, mkTarget v = w ++ r → ∃ r2, v = w ++ r2 := by
  induction w with
  | nil => exact fun _ _ v r _ => ⟨v, rfl⟩
  | cons a w2 ih =>
    intro h1 h2 v r heq
    match v with
    | [] => exact absurd heq (by simp [mkTarget])
    | c :: v2 =>
      by_cases hc : c = '\n'
      · subst hc
        rw [mkTarget_newline] at heq
        simp only [token, List.cons_append, List.nil_append, List.cons.injEq] at heq
        exact absurd heq.1 (by simp at h1; exact h1.1)
      · rw [mkTarget_cons c hc] at heq
        simp only [List.cons_append, List.cons.injEq] at heq
        obtain ⟨r2, hv2⟩ := ih (by simp at h1; exact h1.2) (by simp at h2; exact h2.2) v2 r heq.2
        exact ⟨r2, by rw [heq.1, hv2]; rfl⟩

/-- If the source suffix is token-free and does not begin with a newline, the
constructed target does not begin with the token. -/
theorem startsWithToken_mkTarget (v : List Char) (hv : hasTok v = false)
    (hd : ∀ v2, v ≠ '\n' :: v2) : startsWithToken (mkTarget v) = false := by
  cases hs : startsWithToken (mkTarget v)
  · rfl
  · exfalso
    obtain ⟨r, hr⟩ := (startsWithToken_iff (mkTarget v)).mp hs
    match v with
    | [] => simp [mkTarget, token] at hr
    | '\n' :: v2 => exact absurd rfl (hd v2)
    | c :: v2 =>
      by_cases hc : c = '\n'
      · subst hc
        exact absurd rfl (hd v2)
      · rw [mkTarget_cons c hc] at hr
        rw [show token = '<' :: ['s', 'e', 'n', 't', '_', 'b', 'r', '>'] from rfl] at hr
        simp only [List.cons_append, List.cons.injEq] at hr
        obtain ⟨r2, hv2⟩ :=
          mkTarget_pref ['s', 'e', 'n', 't', '_', 'b', 'r', '>'] (by decide) (by decide) v2 r hr.2
        have hswt : startsWithToken (c :: v2) = true := by
          rw [hr.1, hv2]
          exact startsWithToken_append r2
        rw [startsWithToken_false_of_hasTok c v2 hv] at hswt
        exact absurd hswt (by simp)

/-- On a token-free source, the loop validates the constructed target by
consuming the source exactly. -/
theorem validLoop_mkTarget (s : List Char) (hs : hasTok s = false) :
    ∀ acc, validLoop s (mkTarget s) acc = some ([], acc ++ s) := by
  induction s with
  | nil => intro acc; simp [mkTarget, validLoop_nil]
  | cons c rest ih =>
    intro acc
    by_cases hc : c = '\n'
    · subst hc
      rw [mkTarget_newline, validLoop_tok_newline, ih (hasTok_tail _ _ hs)]
      simp
    · rw [mkTarget_cons c hc]
      have hswt : startsWithToken (c :: mkTarget rest) = false := by
        have := startsWithToken_mkTarget (c :: rest) hs (fun v2 he => hc (by injection he))
        rwa [mkTarget_cons c hc] at this
      rw [validLoop_char_cons c (mkTarget rest) hswt, if_pos rfl, ih (hasTok_tail _ _ hs)]
      simp

theorem mem_mkTarget (u : List Char) (c : Char) (h : c ∈ mkTarget u) : c ∈ u ∨ c ∈ token := by
  induction u with
  | nil => simp [mkTarget] at h
  | cons a rest ih =>
    by_cases ha : a = '\n'
    · subst ha
      rw [mkTarget_newline, List.mem_append] at h
      cases h with
      | inl h => exact Or.inr h
      | inr h =>
        cases ih h with
        | inl h2 => exact Or.inl (List.mem_cons_of_mem _ h2)
        | inr h2 => exact Or.inr h2
    · rw [mkTarget_cons a ha, List.mem_cons] at h
      cases h with
      | inl h => exact Or.inl (h ▸ List.mem_cons_self _ _)
      | inr h =>
        cases ih h with
        | inl h2 => exact Or.inl (List.mem_cons_of_mem _ h2)
        | inr h2 => exact Or.inr h2

theorem stripSpaces_mkTarget_stripSpaces (l : List Char) :
    stripSpaces (mkTarget (stripSpaces l)) = mkTarget (stripSpaces l) := by
  unfold stripSpaces
  rw [List.filter_eq_self]
  intro c hc
  cases mem_mkTarget _ c hc with
  | inl h =>
    have := List.of_mem_filter h
    simpa using this
  | inr h =>
    have : c ≠ ' ' := by
      intro he
      subst he
      simp [token] at h
    simpa using this

/-! ## Claim C1 (trailing tolerance of the validator) -/

/-- C1: the claim says that when the space-stripped target equals the
space-stripped source with one or more trailing newlines removed (and the
target holds no `<sent_br>` token), the validator returns true.  The code
returns false on such pairs: here `source = "a\n"`, `target = "a"` — the
target is token-free, stripping spaces leaves the source equal to the target
plus one trailing newline, the trailing-newline scan of lines 74-78 accepts
the leftover newline, but the reconstruction buffer `"a"` is then compared to
the stripped source `"a\n"` by `manhattan_distance`, which returns `-1` on the
unequal lengths, so the function returns `False`. -/
theorem C1_trailing_newline_failing_input :
    hasTok ("a".toList) = false ∧
    stripSpaces ("a\n".toList) = stripSpaces ("a".toList) ++ ['\n'] ∧
    replace_sentence_breaks_and_validate "a\n" "a" = false := by
  refine ⟨by decide, by decide, by decide⟩

/-! ## Claim C3 (token-free targets) -/

/-- C3 counterexample: the claim quantifies over targets containing no
occurrence of `<sent_br>`, but the validator removes spaces before scanning,
and stripping can create a token occurrence.  `target = "< sent_br>"` contains
no token, yet the validator accepts it against the empty source (the stripped
target becomes exactly the token; the loop drops it because the exhausted
source has no newline, and the empty reconstruction matches the empty source),
while source and target are not equal after space removal. -/
theorem C3_counterexample :
    hasTok ("< sent_br>".toList) = false ∧
    replace_sentence_breaks_and_validate "" "< sent_br>" = true ∧
    stripSpaces ("".toList) ≠ stripSpaces ("< sent_br>".toList) ∧
    ¬(replace_sentence_breaks_and_validate "" "< sent_br>" = true ↔
      stripSpaces ("".toList) = stripSpaces ("< sent_br>".toList)) := by
  refine ⟨by decide, by decide, by decide, by decide⟩

/-- C3 (amended): for every pair whose SPACE-STRIPPED target contains no
occurrence of the token `<sent_br>`, the validator returns true iff source and
target are identical strings after removing all space characters. -/
theorem C3_no_token_iff_amended (source target : String)
    (h : hasTok (stripSpaces target.toList) = false) :
    replace_sentence_breaks_and_validate source target = true ↔
      stripSpaces source.toList = stripSpaces target.toList := by
  rw [validate_true_iff]
  constructor
  · intro hv
    exact validLoop_inj _ h _ [] (by simpa using hv)
  · intro he
    rw [he]
    have := validLoop_self (stripSpaces target.toList) h []
    simpa using this

/-- C3 witness: the amended claim instantiated at `("a b", "ab")`. -/
theorem C3_no_token_witness :
    hasTok (stripSpaces ("ab".toList)) = false ∧
    (replace_sentence_breaks_and_validate "a b" "ab" = true ↔
      stripSpaces ("a b".toList) = stripSpaces ("ab".toList)) :=
  ⟨by decide, C3_no_token_iff_amended "a b" "ab" (by decide)⟩

/-! ## Claim C6 (newline-replacement targets) -/

/-- C6 counterexample: the claim quantifies over every source string, but if
the source itself contains the reserved token, the constructed target (equal
to the source here, which has no newlines) is misread by the scanner: the
token occurrence is dropped because the source head is `<`, not a newline, and
validation fails.  So `validate(S, buildTarget S)` is false for
`S = "<sent_br>"` even though the target is exactly the prescribed
construction. -/
theorem C6_counterexample :
    buildTarget "<sent_br>" = "<sent_br>" ∧
    "<sent_br>".toList.count '\n' = 0 ∧
    replace_sentence_breaks_and_validate "<sent_br>" (buildTarget "<sent_br>") = false := by
  refine ⟨by decide, by decide, by decide⟩

/-- C6 (amended): for every source string S whose space-stripped form contains
no occurrence of the token `<sent_br>`, if the target is constructed from the
space-stripped S by replacing every newline with `<sent_br>`, then the
validator accepts the pair. -/
theorem C6_newline_replacement_amended (S : String)
    (h : hasTok (stripSpaces S.toList) = false) :
    replace_sentence_breaks_and_validate S (buildTarget S) = true := by
  rw [validate_true_iff]
  have htl : (buildTarget S).toList = mkTarget (stripSpaces S.toList) := rfl
  rw [htl, stripSpaces_mkTarget_stripSpaces]
  have := validLoop_mkTarget (stripSpaces S.toList) h []
  simpa using this

/-- C6 witness: the amended claim instantiated at `S = "ab \ncd"`. -/
theorem C6_newline_replacement_witness :
    hasTok (stripSpaces ("ab \ncd".toList)) = false ∧
    replace_sentence_breaks_and_validate "ab \ncd" (buildTarget "ab \ncd") = true :=
  ⟨by decide, C6_newline_replacement_amended "ab \ncd" (by decide)⟩

/-! ## Claim C7 (spurious tokens) -/

/-- C7 counterexample: deleting a spurious token occurrence CAN change the
outcome, because the deletion may splice the surrounding characters into a new
token occurrence that the scanner then treats differently.  Here
`source = "<sent_br>"` and `target = "<sent_br<sent_br>>"`: the target
contains exactly one token occurrence, at offset 8, which the scan reaches
with the source cursor at offset 8 — the character `>`, not a newline (the
first eight characters contain no token occurrence and match the source
one-for-one) — and drops; validation succeeds.  Deleting that occurrence
yields `"<sent_br>"`, whose seam creates a token occurrence at offset 0, and
validation of the resulting pair fails. -/
theorem C7_counterexample :
    "<sent_br<sent_br>>".toList = "<sent_br".toList ++ token ++ ">".toList ∧
    "<sent_br>".toList = "<sent_br".toList ++ ">".toList ∧
    hasTok ("<sent_br".toList) = false ∧
    (stripSpaces ("<sent_br<sent_br>>".toList)).take 8 =
      (stripSpaces ("<sent_br>".toList)).take 8 ∧
    (stripSpaces ("<sent_br>".toList)).drop 8 = ['>'] ∧
    replace_sentence_breaks_and_validate "<sent_br>" "<sent_br<sent_br>>" = true ∧
    replace_sentence_breaks_and_validate "<sent_br>" "<sent_br>" = false ∧
    replace_sentence_breaks_and_validate "<sent_br>" "<sent_br<sent_br>>" ≠
      replace_sentence_breaks_and_validate "<sent_br>" "<sent_br>" := by
  refine ⟨by decide, by decide, by decide, by decide, by decide, by decide, by decide,
    by decide⟩

/-- C7 (amended): locally, the claim holds exactly as the code is written —
whenever the scan reaches a configuration where the remaining target begins
with `<sent_br>` and the current source character is not a newline (including
an exhausted source), the loop's result from that configuration is the same as
its result with that token occurrence removed from the remaining target. -/
theorem C7_spurious_token_amended (src trest acc : List Char)
    (h : src.head? ≠ some '\n') :
    validLoop src (token ++ trest) acc = validLoop src trest acc := by
  match src with
  | [] => exact validLoop_tok_nilsrc trest acc
  | c :: src2 =>
    have hc : c ≠ '\n' := by
      intro he
      subst he
      simp at h
    exact validLoop_tok_skip c hc src2 trest acc

/-- C7 witness: the amended claim instantiated at a concrete configuration. -/
theorem C7_spurious_token_witness :
    (['a'] : List Char).head? ≠ some '\n' ∧
    validLoop ['a'] (token ++ ['a']) [] = validLoop ['a'] ['a'] [] :=
  ⟨by decide, C7_spurious_token_amended ['a'] ['a'] [] (by decide)⟩

/-! ## Lemmas: the deduplicating chunk processor -/

theorem cdc_nil (sim : Sim) (idx : Nat) (lsh : LshState) :
    create_deduplicated_chunk sim [] idx lsh = ([], [], lsh) := rfl

theorem cdc_cons (sim : Sim) (r : Record) (rest : List Record) (idx : Nat) (lsh : LshState) :
    create_deduplicated_chunk sim (r :: rest) idx lsh =
      if lshQuery sim lsh (fingerprint r.source) then
        ((create_deduplicated_chunk sim rest (idx + 1) lsh).1,
         mkEntry r :: (create_deduplicated_chunk sim rest (idx + 1) lsh).2.1,
         (create_deduplicated_chunk sim rest (idx + 1) lsh).2.2)
      else
        (mkEntry r ::
          (create_deduplicated_chunk sim rest (idx + 1)
            (lsh ++ [(idx, fingerprint r.source)])).1,
         (create_deduplicated_chunk sim rest (idx + 1)
            (lsh ++ [(idx, fingerprint r.source)])).2.1,
         (create_deduplicated_chunk sim rest (idx + 1)
            (lsh ++ [(idx, fingerprint r.source)])).2.2) := rfl

/-- Processing a concatenation of chunks is processing them in sequence, the
second starting at the id offset and index state left by the first. -/
theorem cdc_append (sim : Sim) (c1 c2 : List Record) (i : Nat) (lsh : LshState) :
    create_deduplicated_chunk sim (c1 ++ c2) i lsh =
      combine (create_deduplicated_chunk sim c1 i lsh)
        (create_deduplicated_chunk sim c2 (i + c1.length)
          (create_deduplicated_chunk sim c1 i lsh).2.2) := by
  induction c1 generalizing i lsh with
  | nil => simp [cdc_nil, combine]
  | cons r rest ih =>
    rw [List.cons_append, cdc_cons, cdc_cons]
    by_cases hq : lshQuery sim lsh (fingerprint r.source)
    · rw [if_pos hq, if_pos hq, ih]
      simp [combine, Nat.add_assoc, Nat.add_comm 1 rest.length]
    · rw [if_neg hq, if_neg hq, ih]
      simp [combine, Nat.add_assoc, Nat.add_comm 1 rest.length]

/-- Partition totality: every record of the chunk lands in exactly one of the
unique or duplicate lists. -/
theorem cdc_count (sim : Sim) (chunk : List Record) :
    ∀ idx lsh, (create_deduplicated_chunk sim chunk idx lsh).1.length +
      (create_deduplicated_chunk sim chunk idx lsh).2.1.length = chunk.length := by
  induction chunk with
  | nil => intro idx lsh; simp [cdc_nil]
  | cons r rest ih =>
    intro idx lsh
    rw [cdc_cons]
    by_cases hq : lshQuery sim lsh (fingerprint r.source)
    · rw [if_pos hq]
      have h2 := ih (idx + 1) lsh
      dsimp only
      simp only [List.length_cons]
      omega
    · rw [if_neg hq]
      have h2 := ih (idx + 1) (lsh ++ [(idx, fingerprint r.source)])
      dsimp only
      simp only [List.length_cons]
      omega

/-! ## Claim C4 (first occurrence wins) -/

/-- C4: if the fingerprints of records A and B are similar (in both query
directions — estimated Jaccard similarity is symmetric), then processing
`[A, B]` against an empty index yields A unique and B duplicate, with only A's
fingerprint inserted, and processing `[B, A]` yields the mirror image. -/
theorem C4_first_occurrence_wins (sim : Sim) (A B : Record)
    (h1 : sim (fingerprint A.source) (fingerprint B.source) = true)
    (h2 : sim (fingerprint B.source) (fingerprint A.source) = true) :
    create_deduplicated_chunk sim [A, B] 0 [] =
      ([mkEntry A], [mkEntry B], [(0, fingerprint A.source)]) ∧
    create_deduplicated_chunk sim [B, A] 0 [] =
      ([mkEntry B], [mkEntry A], [(0, fingerprint B.source)]) := by
  constructor
  · rw [cdc_cons]
    rw [if_neg (by simp [lshQuery])]
    rw [cdc_cons]
    rw [if_pos (by simp [lshQuery, h1])]
    simp [cdc_nil]
  · rw [cdc_cons]
    rw [if_neg (by simp [lshQuery])]
    rw [cdc_cons]
    rw [if_pos (by simp [lshQuery, h2])]
    simp [cdc_nil]

/-- C4 witness: with the always-similar oracle (every paragraph-set pair is
above threshold) and two distinct records. -/
theorem C4_first_occurrence_witness :
    (simAll (fingerprint "p\nq") (fingerprint "q") = true ∧
     simAll (fingerprint "q") (fingerprint "p\nq") = true) ∧
    (create_deduplicated_chunk simAll
        [⟨"p\nq", "t1", none⟩, ⟨"q", "t2", none⟩] 0 [] =
      ([mkEntry ⟨"p\nq", "t1", none⟩], [mkEntry ⟨"q", "t2", none⟩],
        [(0, fingerprint "p\nq")]) ∧
     create_deduplicated_chunk simAll
        [⟨"q", "t2", none⟩, ⟨"p\nq", "t1", none⟩] 0 [] =
      ([mkEntry ⟨"q", "t2", none⟩], [mkEntry ⟨"p\nq", "t1", none⟩],
        [(0, fingerprint "q")])) :=
  ⟨⟨rfl, rfl⟩, C4_first_occurrence_wins simAll ⟨"p\nq", "t1", none⟩ ⟨"q", "t2", none⟩ rfl rfl⟩

/-! ## Claim C5 (batch-split invariance) -/

/-- C5: processing a record list as one single batch and processing it split
into consecutive batches of arbitrary sizes — each batch's start id being the
corpus offset of its first record, the initially-empty index threaded through
in order — produce exactly the same unique list, duplicate list and final
index state. -/
theorem C5_batch_split_invariance (sim : Sim) (batches : List (List Record)) :
    processSplit sim batches 0 [] = create_deduplicated_chunk sim batches.flatten 0 [] := by
  suffices h : ∀ (bs : List (List Record)) (start : Nat) (lsh : LshState),
      processSplit sim bs start lsh = create_deduplicated_chunk sim bs.flatten start lsh by
    exact h batches 0 []
  intro bs
  induction bs with
  | nil => intro start lsh; simp [processSplit, List.flatten, cdc_nil]
  | cons chunk rest ih =>
    intro start lsh
    show combine (create_deduplicated_chunk sim chunk start lsh)
        (processSplit sim rest (start + chunk.length)
          (create_deduplicated_chunk sim chunk start lsh).2.2) =
      create_deduplicated_chunk sim (chunk :: rest).flatten start lsh
    rw [ih]
    rw [show (chunk :: rest).flatten = chunk ++ rest.flatten from rfl]
    rw [cdc_append]

/-! ## Lemmas: the batch loop of `process_in_batches` -/

theorem chunkAt_eq_take (input : List Record) (cs b : Nat) :
    chunkAt input cs b = (input.drop (b * cs)).take cs := by
  unfold chunkAt
  apply List.take_eq_take.mpr
  rw [List.length_drop]
  omega

theorem drop_chunkAt (input : List Record) (cs b : Nat) :
    input.drop (b * cs) = chunkAt input cs b ++ input.drop ((b + 1) * cs) := by
  rw [chunkAt_eq_take, Nat.succ_mul]
  conv_lhs => rw [← List.take_append_drop cs (input.drop (b * cs))]
  rw [List.drop_drop]

/-- The batch loop, run to the end of the corpus, is a single chunk pass over
the not-yet-processed tail of the input, with ids continuing from the resume
offset. -/
theorem runBatches_eq_chunk (sim : Sim) (input : List Record) (cs : Nat) :
    ∀ (n b : Nat) (lsh : LshState), input.length ≤ (b + n) * cs →
      runBatches sim input cs n b lsh =
        create_deduplicated_chunk sim (input.drop (b * cs)) (b * cs) lsh := by
  intro n
  induction n with
  | zero =>
    intro b lsh h
    rw [List.drop_eq_nil_of_le (by simpa using h)]
    rfl
  | succ n ih =>
    intro b lsh h
    show combine (create_deduplicated_chunk sim (chunkAt input cs b) (b * cs) lsh)
        (runBatches sim input cs n (b + 1)
          (create_deduplicated_chunk sim (chunkAt input cs b) (b * cs) lsh).2.2) =
      create_deduplicated_chunk sim (input.drop (b * cs)) (b * cs) lsh
    have h2 : input.length ≤ ((b + 1) + n) * cs := by
      rw [show (b + 1) + n = b + (n + 1) from by omega]
      exact h
    rw [ih (b + 1) _ h2]
    conv_rhs => rw [drop_chunkAt input cs b]
    rw [cdc_append]
    by_cases hfull : (b + 1) * cs ≤ input.length
    · have hmul : (b + 1) * cs = b * cs + cs := by ring
      have hlen : (chunkAt input cs b).length = cs := by
        rw [chunkAt_eq_take, List.length_take, List.length_drop]
        omega
      rw [hlen, ← Nat.succ_mul]
    · have hnil : input.drop ((b + 1) * cs) = [] := List.drop_eq_nil_of_le (by omega)
      rw [hnil, cdc_nil, cdc_nil]

theorem le_totalBatches_mul (L cs : Nat) (hcs : 0 < cs) : L ≤ totalBatches L cs * cs := by
  unfold totalBatches
  have hdm := Nat.div_add_mod L cs
  have hcomm : cs * (L / cs) = L / cs * cs := Nat.mul_comm _ _
  by_cases hr : L % cs > 0
  · rw [if_pos hr]
    have hsm : (L / cs + 1) * cs = L / cs * cs + cs := Nat.succ_mul _ _
    have hmod : L % cs < cs := Nat.mod_lt _ hcs
    omega
  · rw [if_neg hr]
    simp only [Nat.add_zero]
    omega

/-- What `process_in_batches` does on a resumed run: with both output files
present holding `u0` and `d0`, it appends to them the result of one chunk pass
over the input tail starting at record `((|u0| + |d0|) / chunk_size) *
chunk_size`, with ids continuing from that offset, against the index rebuilt
from `u0` under ids `0..|u0|-1` in file order. -/
theorem process_in_batches_resume (sim : Sim) (input : List Record) (cs : Nat)
    (hcs : 0 < cs) (u0 d0 : List Entry) :
    process_in_batches sim input cs (some (u0, d0)) =
      (u0 ++ (create_deduplicated_chunk sim
          (input.drop (((u0.length + d0.length) / cs) * cs))
          (((u0.length + d0.length) / cs) * cs)
          (u0.enum.map (fun q => (q.1, fingerprint q.2.source)))).1,
       d0 ++ (create_deduplicated_chunk sim
          (input.drop (((u0.length + d0.length) / cs) * cs))
          (((u0.length + d0.length) / cs) * cs)
          (u0.enum.map (fun q => (q.1, fingerprint q.2.source)))).2.1) := by
  have hunfold : process_in_batches sim input cs (some (u0, d0)) =
      (u0 ++ (runBatches sim input cs
          (totalBatches input.length cs - (u0.length + d0.length) / cs)
          ((u0.length + d0.length) / cs)
          (u0.enum.map (fun q => (q.1, fingerprint q.2.source)))).1,
       d0 ++ (runBatches sim input cs
          (totalBatches input.length cs - (u0.length + d0.length) / cs)
          ((u0.length + d0.length) / cs)
          (u0.enum.map (fun q => (q.1, fingerprint q.2.source)))).2.1) := rfl
  rw [hunfold]
  rw [runBatches_eq_chunk sim input cs _ _ _ ?_]
  have htb := le_totalBatches_mul input.length cs hcs
  have hmono : totalBatches input.length cs ≤
      (u0.length + d0.length) / cs +
        (totalBatches input.length cs - (u0.length + d0.length) / cs) := by
    omega
  calc input.length ≤ totalBatches input.length cs * cs := htb
    _ ≤ ((u0.length + d0.length) / cs +
          (totalBatches input.length cs - (u0.length + d0.length) / cs)) * cs :=
      Nat.mul_le_mul_right cs hmono

/-! ## Claim C8 (resume-state reconstruction) -/

/-- C8: on a resumed run (both persisted files present, `U` unique and `D`
duplicate entries), the runner computes `processed_batches = (U + D) /
chunk_size`, replays a fingerprint insertion for each persisted unique record
under ids `0..U-1` in file order, and resumes the batch loop at that batch
number — so exactly the input records before offset
`processed_batches * chunk_size` are not reprocessed, and the new results are
appended after the persisted contents. -/
theorem C8_resume_reconstruction (sim : Sim) (input : List Record) (cs : Nat)
    (hcs : 0 < cs) (u0 d0 : List Entry) :
    process_in_batches sim input cs (some (u0, d0)) =
      (u0 ++ (create_deduplicated_chunk sim
          (input.drop (((u0.length + d0.length) / cs) * cs))
          (((u0.length + d0.length) / cs) * cs)
          (u0.enum.map (fun q => (q.1, fingerprint q.2.source)))).1,
       d0 ++ (create_deduplicated_chunk sim
          (input.drop (((u0.length + d0.length) / cs) * cs))
          (((u0.length + d0.length) / cs) * cs)
          (u0.enum.map (fun q => (q.1, fingerprint q.2.source)))).2.1) :=
  process_in_batches_resume sim input cs hcs u0 d0

/-- C8 witness: resuming over a two-record corpus with batch size 1 and one
persisted unique entry reprocesses exactly the second record, which the
replayed index (with the always-similar oracle) marks duplicate. -/
theorem C8_resume_witness :
    (0 : Nat) < 1 ∧
    process_in_batches simAll [recA, recB] 1 (some ([mkEntry recA], [])) =
      ([mkEntry recA], [mkEntry recB]) :=
  ⟨Nat.one_pos,
    (C8_resume_reconstruction simAll [recA, recB] 1 Nat.one_pos [mkEntry recA] []).trans
      (by decide)⟩

/-! ## Claim C2 (conservation of records) -/

/-- C2 counterexample: re-invoking the pipeline on persisted output of a
completed run whose record count is not a multiple of the batch size breaks
conservation.  A fresh run over one record with `chunk_size = 2` persists that
one record as unique; resuming from that state computes
`processed_batches = 1 / 2 = 0` and reprocesses the record, appending it a
second time — the persisted counts then sum to 2, not 1. -/
theorem C2_resume_counterexample :
    process_in_batches simAll [recA] 2 none = ([mkEntry recA], []) ∧
    (process_in_batches simAll [recA] 2 (some ([mkEntry recA], []))).1.length +
      (process_in_batches simAll [recA] 2 (some ([mkEntry recA], []))).2.length ≠ 1 := by
  refine ⟨by decide, by decide⟩

/-- C2 (amended): conservation holds for every completed run that is fresh
(no persisted files), or resumed from persisted files whose combined entry
count is a multiple of the batch size and at most the input size — the states
actually produced by interrupting the pipeline at its checkpoint boundaries
before the final partial batch: the persisted unique and duplicate counts then
sum to the input record count. -/
theorem C2_conservation_amended (sim : Sim) (input : List Record) (cs : Nat)
    (hcs : 0 < cs) (existing : Option (List Entry × List Entry))
    (hex : match existing with
      | some ud => (ud.1.length + ud.2.length) % cs = 0 ∧
          ud.1.length + ud.2.length ≤ input.length
      | none => True) :
    (process_in_batches sim input cs existing).1.length +
      (process_in_batches sim input cs existing).2.length = input.length := by
  match existing with
  | none =>
    have hunfold : process_in_batches sim input cs none =
        ((runBatches sim input cs (totalBatches input.length cs) 0 []).1,
         (runBatches sim input cs (totalBatches input.length cs) 0 []).2.1) := rfl
    rw [hunfold]
    rw [runBatches_eq_chunk sim input cs _ _ _
      (by simpa using le_totalBatches_mul input.length cs hcs)]
    have := cdc_count sim (input.drop (0 * cs)) (0 * cs) []
    simpa using this
  | some (u0, d0) =>
    obtain ⟨hmod, hle⟩ := hex
    have hmod2 : (u0.length + d0.length) % cs = 0 := hmod
    have hle2 : u0.length + d0.length ≤ input.length := hle
    rw [process_in_batches_resume sim input cs hcs u0 d0]
    have hdvd : ((u0.length + d0.length) / cs) * cs = u0.length + d0.length :=
      Nat.div_mul_cancel (Nat.dvd_of_mod_eq_zero hmod2)
    have hcount := cdc_count sim
      (input.drop (((u0.length + d0.length) / cs) * cs))
      (((u0.length + d0.length) / cs) * cs)
      (u0.enum.map (fun q => (q.1, fingerprint q.2.source)))
    have hdrop : (input.drop (((u0.length + d0.length) / cs) * cs)).length =
        input.length - (u0.length + d0.length) := by
      rw [List.length_drop, hdvd]
    simp only [List.length_append]
    omega

/-- C2 witness: a resumed run from a one-full-batch checkpoint over a
two-record corpus with batch size 1 conserves the record count. -/
theorem C2_conservation_witness :
    ((1 : Nat) % 1 = 0 ∧ 1 ≤ 2) ∧
    (process_in_batches simAll [recA, recB] 1 (some ([mkEntry recA], []))).1.length +
      (process_in_batches simAll [recA, recB] 1 (some ([mkEntry recA], []))).2.length = 2 :=
  ⟨⟨by decide, by decide⟩, by
    have h := C2_conservation_amended simAll [recA, recB] 1 Nat.one_pos
      (some ([mkEntry recA], [])) ⟨by decide, by decide⟩
    simpa using h⟩

/-! ## Claim C10 (filename truthiness at the output interface) -/

theorem mkEntry_spec (r : Record) :
    (mkEntry r).source = r.source ∧ (mkEntry r).target = r.target ∧
    ((r.filename = none ∨ r.filename = some "") → (mkEntry r).filename = none) ∧
    (∀ f, r.filename = some f → f ≠ "" → (mkEntry r).filename = some f) := by
  refine ⟨rfl, rfl, ?_, ?_⟩
  · rintro (h | h) <;> simp [mkEntry, h]
  · intro f hf hne
    simp [mkEntry, hf, hne]

/-- C10: every record processed by the batch deduplicator is emitted as a
unique or duplicate entry that preserves its source and target verbatim, and
the emitted entry carries a filename exactly when the record's filename is
truthy: a missing (`None`) or empty-string filename is emitted without any
filename field, a nonempty filename is copied over. -/
theorem C10_filename_truthiness (sim : Sim) (chunk : List Record) :
    ∀ (start : Nat) (lsh : LshState) (r : Record), r ∈ chunk →
      ∃ e : Entry,
        (e ∈ (create_deduplicated_chunk sim chunk start lsh).1 ∨
         e ∈ (create_deduplicated_chunk sim chunk start lsh).2.1) ∧
        e.source = r.source ∧ e.target = r.target ∧
        ((r.filename = none ∨ r.filename = some "") → e.filename = none) ∧
        (∀ f, r.filename = some f → f ≠ "" → e.filename = some f) := by
  induction chunk with
  | nil =>
    intro start lsh r hr
    simp at hr
  | cons x rest ih =>
    intro start lsh r hr
    rw [cdc_cons]
    by_cases hq : lshQuery sim lsh (fingerprint x.source)
    · rw [if_pos hq]
      dsimp only
      rcases List.mem_cons.mp hr with he | hrest
      · subst he
        exact ⟨mkEntry r, Or.inr (List.mem_cons_self _ _), mkEntry_spec r⟩
      · obtain ⟨e, hmem, hprops⟩ := ih (start + 1) lsh r hrest
        exact ⟨e, hmem.imp id (List.mem_cons_of_mem _), hprops⟩
    · rw [if_neg hq]
      dsimp only
      rcases List.mem_cons.mp hr with he | hrest
      · subst he
        exact ⟨mkEntry r, Or.inl (List.mem_cons_self _ _), mkEntry_spec r⟩
      · obtain ⟨e, hmem, hprops⟩ :=
          ih (start + 1) (lsh ++ [(start, fingerprint x.source)]) r hrest
        exact ⟨e, hmem.imp (List.mem_cons_of_mem _) id, hprops⟩

/-- C10 witness: a record whose filename is the empty string is emitted (here
as a unique entry) with no filename field. -/
theorem C10_filename_witness :
    recB ∈ [recB] ∧
    ∃ e : Entry,
      (e ∈ (create_deduplicated_chunk simAll [recB] 0 []).1 ∨
       e ∈ (create_deduplicated_chunk simAll [recB] 0 []).2.1) ∧
      e.source = recB.source ∧ e.target = recB.target ∧
      ((recB.filename = none ∨ recB.filename = some "") → e.filename = none) ∧
      (∀ f, recB.filename = some f → f ≠ "" → e.filename = some f) :=
  ⟨List.mem_cons_self _ _,
    C10_filename_truthiness simAll [recB] 0 [] recB (List.mem_cons_self _ _)⟩

/-! ## Lemmas: the validation path -/

/-- A line whose parse result is not a key-access hazard either strips to
empty (and is skipped) or contributes exactly one classified record. -/
theorem processLine_cases (parse : String → Except String PyVal) (ln : Nat) (raw : String)
    (hraw : isBadResult (parse (pyStrip raw)) = false) :
    (pyStrip raw = "" ∧ processLine parse ln raw = Except.ok none) ∨
    (pyStrip raw ≠ "" ∧ ∃ x, processLine parse ln raw = Except.ok (some x)) := by
  by_cases he : pyStrip raw = ""
  · exact Or.inl ⟨he, by unfold processLine; rw [if_pos he]⟩
  · refine Or.inr ⟨he, ?_⟩
    unfold processLine
    rw [if_neg he]
    cases hp : parse (pyStrip raw) with
    | error e => exact ⟨_, rfl⟩
    | ok v =>
      cases v with
      | bad =>
        rw [hp] at hraw
        simp [isBadResult] at hraw
      | obj rec =>
        dsimp only
        rcases hs : rec.source with _ | s
        · exact ⟨_, rfl⟩
        · rcases ht : rec.target with _ | t
          · exact ⟨_, rfl⟩
          · by_cases hv : replace_sentence_breaks_and_validate s t
            · exact ⟨_, by dsimp only; rw [if_pos hv]⟩
            · exact ⟨_, by dsimp only; rw [if_neg hv]⟩

theorem processLine_eq (parse : String → Except String PyVal) (ln : Nat) (raw : String)
    (hraw : isBadResult (parse (pyStrip raw)) = false) :
    processLine parse ln raw = Except.ok (lineClass parse (ln, raw)) := by
  rcases processLine_cases parse ln raw hraw with ⟨_, hok⟩ | ⟨_, x, hok⟩ <;>
    · rw [hok]
      unfold lineClass
      dsimp only
      rw [hok]

/-- In a run with no uncaught per-line exception, the line loop returns the
classification of every line, valid and invalid records in input order. -/
theorem processLinesFrom_eq (parse : String → Except String PyVal) :
    ∀ (lines : List String) (n : Nat),
      (∀ l ∈ lines, isBadResult (parse (pyStrip l)) = false) →
      processLinesFrom parse n lines =
        Except.ok
          (((List.enumFrom n lines).filterMap (lineClass parse)).filterMap sumValid,
           ((List.enumFrom n lines).filterMap (lineClass parse)).filterMap sumInvalid) := by
  intro lines
  induction lines with
  | nil => intro n h; rfl
  | cons raw rest ih =>
    intro n h
    have hraw := h raw (List.mem_cons_self _ _)
    have hrest : ∀ l ∈ rest, isBadResult (parse (pyStrip l)) = false :=
      fun l hl => h l (List.mem_cons_of_mem _ hl)
    have hstep : processLinesFrom parse n (raw :: rest) =
        match processLine parse n raw with
        | Except.error e => Except.error e
        | Except.ok none => processLinesFrom parse (n + 1) rest
        | Except.ok (some (Sum.inl r)) =>
          match processLinesFrom parse (n + 1) rest with
          | Except.error e => Except.error e
          | Except.ok res => Except.ok (r :: res.1, res.2)
        | Except.ok (some (Sum.inr e)) =>
          match processLinesFrom parse (n + 1) rest with
          | Except.error err => Except.error err
          | Except.ok res => Except.ok (res.1, e :: res.2) := rfl
    rw [hstep, processLine_eq parse n raw hraw]
    have henum : List.enumFrom n (raw :: rest) = (n, raw) :: List.enumFrom (n + 1) rest := rfl
    rw [henum, List.filterMap_cons]
    cases hlc : lineClass parse (n, raw) with
    | none =>
      dsimp only
      rw [ih (n + 1) hrest]
    | some o =>
      cases o with
      | inl r =>
        dsimp only
        rw [ih (n + 1) hrest]
        simp [List.filterMap_cons, sumValid, sumInvalid]
      | inr e =>
        dsimp only
        rw [ih (n + 1) hrest]
        simp [List.filterMap_cons, sumValid, sumInvalid]

/-- Every classified record is valid or invalid, never both. -/
theorem filterMap_sum_length (L : List (PyRec ⊕ InvalidRecord)) :
    (L.filterMap sumValid).length + (L.filterMap sumInvalid).length = L.length := by
  induction L with
  | nil => rfl
  | cons o rest ih =>
    cases o with
    | inl r =>
      simp only [List.filterMap_cons, sumValid, sumInvalid, List.length_cons]
      omega
    | inr e =>
      simp only [List.filterMap_cons, sumValid, sumInvalid, List.length_cons]
      omega

/-- In a run with no uncaught per-line exception, the number of classified
records equals the number of lines that are nonempty after stripping. -/
theorem classification_count (parse : String → Except String PyVal) :
    ∀ (lines : List String) (n : Nat),
      (∀ l ∈ lines, isBadResult (parse (pyStrip l)) = false) →
      ((List.enumFrom n lines).filterMap (lineClass parse)).length =
        lines.countP (fun l => pyStrip l != "") := by
  intro lines
  induction lines with
  | nil => intro n h; rfl
  | cons raw rest ih =>
    intro n h
    have hraw := h raw (List.mem_cons_self _ _)
    have hrest : ∀ l ∈ rest, isBadResult (parse (pyStrip l)) = false :=
      fun l hl => h l (List.mem_cons_of_mem _ hl)
    have henum : List.enumFrom n (raw :: rest) = (n, raw) :: List.enumFrom (n + 1) rest := rfl
    rw [henum, List.filterMap_cons, List.countP_cons]
    rcases processLine_cases parse n raw hraw with ⟨he, hok⟩ | ⟨he, x, hok⟩
    · have hlc : lineClass parse (n, raw) = none := by
        unfold lineClass
        dsimp only
        rw [hok]
      rw [hlc]
      dsimp only
      rw [ih (n + 1) hrest]
      simp [he]
    · have hlc : lineClass parse (n, raw) = some x := by
        unfold lineClass
        dsimp only
        rw [hok]
      rw [hlc]
      dsimp only
      simp only [List.length_cons]
      rw [ih (n + 1) hrest]
      have hne : (pyStrip raw != "") = true := by simpa using he
      simp [hne]

/-! ## Claim C9 (malformed-record recovery) -/

/-- C9 counterexample: the per-record recovery is not total.  A line that
parses successfully to a non-object JSON value (here the line `"5"`) raises an
uncaught `TypeError` at the `"source" not in data_point` key test; the outer
`except Exception` handler then returns `([], [])`, so the run aborts and even
the previously classified nonempty line `"ok"` ends up in neither the valid
nor the invalid set — both output sets are empty although the input has two
nonempty lines. -/
theorem C9_counterexample :
    process_tibetan_sentences parseBad1 ["ok", "5"] = ([], []) ∧
    (["ok", "5"] : List String).countP (fun l => pyStrip l != "") = 2 ∧
    (process_tibetan_sentences parseBad1 ["ok", "5"]).1.length +
      (process_tibetan_sentences parseBad1 ["ok", "5"]).2.length ≠ 2 := by
  refine ⟨by decide, by decide, by decide⟩

/-- C9 (amended): provided every nonempty line parses (when it parses at all)
to a JSON object with string-typed `source`/`target` fields — so that no
per-line key access raises — the loop classifies every line independently:
a JSON parse failure contributes a synthetic record with the line number, the
parser message and the stripped line; a parsed record lacking `source` or
`target` contributes the record augmented with its line number; processing
always continues with the next line, and every nonempty line lands in exactly
one of the valid or invalid sets (valid count + invalid count = nonempty line
count). -/
theorem C9_malformed_recovery_amended (parse : String → Except String PyVal)
    (lines : List String)
    (h : ∀ l ∈ lines, isBadResult (parse (pyStrip l)) = false) :
    process_tibetan_sentences parse lines =
      (((List.enumFrom 1 lines).filterMap (lineClass parse)).filterMap sumValid,
       ((List.enumFrom 1 lines).filterMap (lineClass parse)).filterMap sumInvalid) ∧
    (process_tibetan_sentences parse lines).1.length +
      (process_tibetan_sentences parse lines).2.length =
      lines.countP (fun l => pyStrip l != "") := by
  have h1 := processLinesFrom_eq parse lines 1 h
  have h2 : process_tibetan_sentences parse lines =
      (((List.enumFrom 1 lines).filterMap (lineClass parse)).filterMap sumValid,
       ((List.enumFrom 1 lines).filterMap (lineClass parse)).filterMap sumInvalid) := by
    unfold process_tibetan_sentences
    rw [h1]
  refine ⟨h2, ?_⟩
  rw [h2]
  dsimp only
  rw [filterMap_sum_length]
  exact classification_count parse lines 1 h

/-- C9 witness: the amended claim instantiated at a single well-formed line. -/
theorem C9_malformed_recovery_witness :
    (∀ l ∈ (["ok"] : List String), isBadResult (parseBad1 (pyStrip l)) = false) ∧
    (process_tibetan_sentences parseBad1 ["ok"] =
      (((List.enumFrom 1 ["ok"]).filterMap (lineClass parseBad1)).filterMap sumValid,
       ((List.enumFrom 1 ["ok"]).filterMap (lineClass parseBad1)).filterMap sumInvalid) ∧
     (process_tibetan_sentences parseBad1 ["ok"]).1.length +
       (process_tibetan_sentences parseBad1 ["ok"]).2.length =
       (["ok"] : List String).countP (fun l => pyStrip l != "")) :=
  ⟨by decide, C9_malformed_recovery_amended parseBad1 ["ok"] (by decide)⟩

end TibSentenceGathering
